import Mathlib

/-!
Verification of the SCHEMA taxonomy-mapping module (`schema/schema.py`).

This file gives a shallow embedding of the module's data model and
operations and proves or refutes the frozen claims about it.

Conventions of the embedding:
* Python strings are `String`; Python sets are `Finset String`.
* Python real arithmetic (true division of `from __future__ import division`)
  is modelled with exact rationals `ℚ`.
* Fallible code is modelled in `Except Unit`: a `ZeroDivisionError` raised by
  the Python code corresponds to `Except.error ()`.
* The external libraries (`Levenshtein.distance` and
  `pyxdameraulevenshtein.normalized_damerau_levenshtein_distance`) and the
  WordNet knowledge base are not part of the repository; they are modelled
  from the spec's interface description (see the doc comments below).
* Keys produced by `unichr(counter)` are modelled by the counter value
  itself (a `Nat`); `unichr` is injective on the range the algorithm uses.
-/

/-- An instance so that goals about `Except` values can be settled by `decide`. -/
instance {ε α : Type} [DecidableEq ε] [DecidableEq α] : DecidableEq (Except ε α) := fun a b =>
  match a, b with
  | Except.error e, Except.error f =>
      if h : e = f then Decidable.isTrue (by rw [h])
      else Decidable.isFalse (fun hc => h (by injection hc))
  | Except.ok x, Except.ok y =>
      if h : x = y then Decidable.isTrue (by rw [h])
      else Decidable.isFalse (fun hc => h (by injection hc))
  | Except.error _, Except.ok _ => Decidable.isFalse (fun hc => by injection hc)
  | Except.ok _, Except.error _ => Decidable.isFalse (fun hc => by injection hc)

/-- Scanner for `re.split(', | & | and ', w)`: walks the character list left to
right; at each position the three alternatives `", "`, `" & "`, `" and "` are
tried in the order they appear in the pattern (they are mutually exclusive at
any given position).  `acc` holds the current fragment, reversed. -/
def splitAux : List Char → List Char → List (List Char)
  | [], acc => [acc.reverse]
  | ',' :: ' ' :: rest, acc => acc.reverse :: splitAux rest []
  | ' ' :: '&' :: ' ' :: rest, acc => acc.reverse :: splitAux rest []
  | ' ' :: 'a' :: 'n' :: 'd' :: ' ' :: rest, acc => acc.reverse :: splitAux rest []
  | c :: cs, acc => splitAux cs (c :: acc)

/-- Embedding of `_split_composite(w)`: splits a composite category name on the separators
`", "`, `" & "`, `" and "` and lower-cases each fragment, returning the split
term set. -/
def splitComposite (w : String) : Finset String :=
  ((splitAux w.toList []).map (fun l => String.mk (l.map Char.toLower))).toFinset

/-- Length of the common prefix of two character lists. -/
def commonPrefixLen : List Char → List Char → Nat
  | a :: as, b :: bs => if a = b then commonPrefixLen as bs + 1 else 0
  | _, _ => 0

/-- Length of the longest common contiguous character run of two strings:
the quantity computed by the dynamic-programming table of
`_longest_common_substring` (the maximum, over all pairs of start positions,
of the length of the common run starting there). -/
def lcsLen (a b : List Char) : Nat :=
  (a.tails.map (fun ta => (b.tails.map (commonPrefixLen ta)).foldl max 0)).foldl max 0

/-- Embedding of `_longest_common_substring(wa, wb)`: the longest common substring length
divided by the length of the longer input.  The Python code raises
`ZeroDivisionError` when both strings are empty; callers model that case
explicitly, so the division here is total `ℚ` division. -/
def lcsScore (wa wb : String) : ℚ :=
  (lcsLen wa.toList wb.toList : ℚ) / (max wa.length wb.length : ℚ)

/-- Modelled from the spec: the plain single-character insert/delete/substitute
edit distance computed by the external `Levenshtein.distance` library call,
implemented by the classic Wagner-Fischer row recurrence.  `prev` is the row
of distances for the previous prefix of the first string; `rowAux` extends the
new row across the second string. -/
def rowAux (c : Char) : List Char → List Nat → Nat → Nat → List Nat
  | b :: bs, pj1 :: ps, pj, nj =>
      let v := min (nj + 1) (min (pj1 + 1) (pj + if c = b then 0 else 1))
      v :: rowAux c bs ps pj1 v
  | _, _, _, _ => []

/-- One row step of the Wagner-Fischer computation. -/
def levRow (c : Char) (t : List Char) (prev : List Nat) : List Nat :=
  match prev with
  | p0 :: ps => (p0 + 1) :: rowAux c t ps p0 (p0 + 1)
  | [] => []

/-- Modelled from the spec: `Levenshtein.distance(s, t)`. -/
def lev (s t : List Char) : Nat :=
  (s.foldl (fun prev c => levRow c t prev) (List.range (t.length + 1))).getLastD 0

/-- Embedding of `_contains_as_separate_component(wa, wb)`: despite its name, a plain
substring test `wb in wa`. -/
def containsAsSeparateComponent (wa wb : String) : Bool :=
  decide (wb.toList <:+: wa.toList)

/-- The normalized edit similarity `1 - edit_dist / max(len(e), len(t))`
computed inside `SemanticMatcher.match`.  Total `ℚ` division; the only pair on
which the Python computation would divide by zero (both strings empty) is
modelled by the explicit error case of `SemanticMatcher.smatch`. -/
def similarity (wa wb : String) : ℚ :=
  1 - (lev wa.toList wb.toList : ℚ) / (max wa.length wb.length : ℚ)

namespace SemanticMatcher

/-- Embedding of `SemanticMatcher.match(E, wtarget, tnode)` (named `smatch` because `match`
is reserved in Lean).  Returns `ok false` for empty `E`; raises
`ZeroDivisionError` (modelled by `error ()`) exactly when some pair of
compared terms is a pair of empty strings, i.e. when `"" ∈ E` and
`"" ∈ Wtarget` (the loops have no early exit, so the error is reached iff such
a pair exists); otherwise returns whether every element of `E` has some split
target term it contains as a substring or is similar to at threshold
`tnode`. -/
def smatch (E : Finset String) (wtarget : String) (tnode : ℚ) : Except Unit Bool :=
  let Wtarget := splitComposite wtarget
  if E = ∅ then Except.ok false
  else if "" ∈ E ∧ "" ∈ Wtarget then Except.error ()
  else Except.ok (decide (∀ e ∈ E, ∃ t ∈ Wtarget,
    containsAsSeparateComponent e t = true ∨ tnode ≤ similarity e t))

end SemanticMatcher

/-! ### Evaluation lemmas for the string primitives -/

lemma splitComposite_empty : splitComposite "" = {""} := by decide

lemma splitComposite_CottageCheese : splitComposite "Cottage Cheese" = {"cottage cheese"} := by
  decide

lemma splitAux_ne_nil (l acc : List Char) : splitAux l acc ≠ [] := by
  induction l, acc using splitAux.induct <;> simp [splitAux, *]

lemma splitComposite_nonempty (w : String) : (splitComposite w).Nonempty := by
  unfold splitComposite
  cases h : splitAux w.toList [] with
  | nil => exact absurd h (splitAux_ne_nil _ _)
  | cons x xs => exact ⟨String.mk (x.map Char.toLower), by simp [h]⟩

lemma lev_cheese : lev "cheese".toList "cottage cheese".toList = 8 := by decide

lemma similarity_cheese : similarity "cheese" "cottage cheese" = 3 / 7 := by
  unfold similarity
  rw [lev_cheese, show "cheese".length = 6 from rfl, show "cottage cheese".length = 14 from rfl]
  have hm : ((6 : ℕ) : ℚ) ⊔ ((14 : ℕ) : ℚ) = 14 := by
    rw [max_eq_right] <;> norm_num
  rw [hm]
  norm_num

/-! ### Claims about the Term Splitter and the Semantic Matcher -/

/-- C3 counterexample: the Term Splitter does not split on single-space
boundaries; the multi-word phrase "cheese alternatives" is preserved as one
atomic term, contrary to the claim. -/
theorem splitComposite_space_cex :
    splitComposite "cheese alternatives" = {"cheese alternatives"} ∧
    splitComposite "cheese alternatives" ≠ {"cheese", "alternatives"} := by
  constructor
  · decide
  · decide

/-- C3 (amended): the Term Splitter splits a composite label on the separator
strings ", ", " & " and " and " only, lower-casing the fragments; fragments
joined by plain single spaces are preserved as multi-word atomic terms, and
the result is never empty. -/
theorem splitComposite_separator_spec :
    splitComposite "Cheese & Cheese Alternatives" = {"cheese", "cheese alternatives"} ∧
    splitComposite "Cheese, Milk and Cream" = {"cheese", "milk", "cream"} ∧
    ∀ w : String, (splitComposite w).Nonempty := by
  refine ⟨by decide, by decide, splitComposite_nonempty⟩

/-- C6: the Semantic Matcher applied to an empty extended term set returns
false for every target label and threshold, as a defined result (an `ok`
value, not an exception). -/
theorem smatch_empty_E (wtarget : String) (tnode : ℚ) :
    SemanticMatcher.smatch ∅ wtarget tnode = Except.ok false := by
  simp [SemanticMatcher.smatch]

/-- C2: evaluating `SemanticMatcher.match` at the failing input of the claim:
`match({"cheese"}, "Cottage Cheese", 0.8)` returns false, not true.  The
containment test asks whether the source term contains the target term
("cheese" does not contain "cottage cheese") and the edit similarity is
`1 - 8/14 = 3/7 < 0.8`. -/
theorem smatch_cheese_cottage :
    SemanticMatcher.smatch {"cheese"} "Cottage Cheese" (4 / 5) = Except.ok false := by
  unfold SemanticMatcher.smatch
  rw [if_neg (by decide), if_neg (by decide)]
  congr 1
  apply decide_eq_false
  intro hP
  obtain ⟨t, ht, hc⟩ := hP "cheese" (Finset.mem_singleton_self _)
  rw [splitComposite_CottageCheese, Finset.mem_singleton] at ht
  subst ht
  rcases hc with hc | hc
  · rw [show containsAsSeparateComponent "cheese" "cottage cheese" = false from by decide] at hc
    exact Bool.false_ne_true hc
  · rw [similarity_cheese] at hc
    norm_num at hc

/-- C9 counterexample: when the extended term set contains the empty string
and the target label is empty, the matcher divides by zero
(`max(len(""), len("")) = 0`), modelled by `error ()`; it does not return
true. -/
theorem smatch_empty_string_cex :
    SemanticMatcher.smatch {""} "" (4 / 5) = Except.error () := by decide

/-- C9 (amended): for every non-empty extended term set not containing the
empty string, matching against the empty target label returns true at every
threshold: the empty label splits to the singleton set of the empty term, and
every term contains the empty string as a substring. -/
theorem smatch_empty_target (E : Finset String) (tnode : ℚ)
    (hne : E.Nonempty) (hns : "" ∉ E) :
    SemanticMatcher.smatch E "" tnode = Except.ok true := by
  unfold SemanticMatcher.smatch
  rw [if_neg (Finset.nonempty_iff_ne_empty.mp hne), if_neg (fun h => hns h.1)]
  congr 1
  apply decide_eq_true
  intro e he
  refine ⟨"", ?_, Or.inl ?_⟩
  · rw [splitComposite_empty]; exact Finset.mem_singleton_self _
  · exact decide_eq_true ⟨[], e.toList, by simp⟩

/-- C9 witness: the amended theorem applied at the concrete extended term set
containing "cheese" and threshold 0.8. -/
theorem smatch_empty_target_witness :
    SemanticMatcher.smatch {"cheese"} "" (4 / 5) = Except.ok true :=
  smatch_empty_target {"cheese"} (4 / 5) ⟨"cheese", Finset.mem_singleton_self _⟩ (by decide)

/-! ### Key Path Ranker

Key paths are strings of key characters; keys are modelled as naturals, so a
key path is a `List Nat`. -/

/-- Modelled from the spec: the optimal-string-alignment Damerau-Levenshtein
distance computed by the external
`pyxdameraulevenshtein.normalized_damerau_levenshtein_distance` call, before
normalization: insert, delete, substitute, plus adjacent transposition as a
single operation.  Written with explicit fuel (first argument) so the
recursion is structural; with fuel at least the sum of the two lengths the
value is the OSA distance. -/
def osaF : Nat → List Nat → List Nat → Nat
  | 0, _, _ => 0
  | _ + 1, [], t => t.length
  | _ + 1, s, [] => s.length
  | f + 1, a :: s, b :: t =>
      let d1 := osaF f s (b :: t) + 1
      let d2 := osaF f (a :: s) t + 1
      let d3 := osaF f s t + (if a = b then 0 else 1)
      let base := min d1 (min d2 d3)
      match s, t with
      | a2 :: s2, b2 :: t2 =>
          if a = b2 ∧ a2 = b then min base (osaF f s2 t2 + 1) else base
      | _, _ => base

/-- The OSA Damerau-Levenshtein distance of two key paths. -/
def osa (src tgt : List Nat) : Nat := osaF (src.length + tgt.length) src tgt

lemma osaF_nil_left (f : Nat) (t : List Nat) : osaF (f + 1) [] t = t.length := by
  rcases t with _ | ⟨b, t⟩ <;> rfl

lemma osaF_nil_right (f a : Nat) (s : List Nat) : osaF (f + 1) (a :: s) [] = (a :: s).length :=
  rfl

lemma osaF_one_one (f a b : Nat) :
    osaF (f + 1) [a] [b] =
      min (osaF f [] [b] + 1)
        (min (osaF f [a] [] + 1) (osaF f [] [] + (if a = b then 0 else 1))) := rfl

lemma osaF_many_one (f a a2 b : Nat) (s2 : List Nat) :
    osaF (f + 1) (a :: a2 :: s2) [b] =
      min (osaF f (a2 :: s2) [b] + 1)
        (min (osaF f (a :: a2 :: s2) [] + 1)
          (osaF f (a2 :: s2) [] + (if a = b then 0 else 1))) := rfl

lemma osaF_one_many (f a b b2 : Nat) (t2 : List Nat) :
    osaF (f + 1) [a] (b :: b2 :: t2) =
      min (osaF f [] (b :: b2 :: t2) + 1)
        (min (osaF f [a] (b2 :: t2) + 1)
          (osaF f [] (b2 :: t2) + (if a = b then 0 else 1))) := rfl

lemma osaF_many_many (f a a2 b b2 : Nat) (s2 t2 : List Nat) :
    osaF (f + 1) (a :: a2 :: s2) (b :: b2 :: t2) =
      (if a = b2 ∧ a2 = b then
        min
          (min (osaF f (a2 :: s2) (b :: b2 :: t2) + 1)
            (min (osaF f (a :: a2 :: s2) (b2 :: t2) + 1)
              (osaF f (a2 :: s2) (b2 :: t2) + (if a = b then 0 else 1))))
          (osaF f s2 t2 + 1)
      else
        min (osaF f (a2 :: s2) (b :: b2 :: t2) + 1)
          (min (osaF f (a :: a2 :: s2) (b2 :: t2) + 1)
            (osaF f (a2 :: s2) (b2 :: t2) + (if a = b then 0 else 1)))) := rfl

lemma osaF_self : ∀ (f : Nat) (s : List Nat), s.length + s.length ≤ f → osaF f s s = 0 := by
  intro f
  induction f with
  | zero => intro s h; rfl
  | succ f ih =>
      intro s h
      rcases s with _ | ⟨a, s⟩
      · rfl
      · have h0 := ih s (by simp only [List.length_cons] at h; omega)
        rcases s with _ | ⟨a2, s2⟩
        · rw [osaF_one_one, h0, if_pos rfl]
          omega
        · have h2 := ih s2 (by simp only [List.length_cons] at h; omega)
          rw [osaF_many_many, h0, h2]
          rw [if_pos rfl]
          split_ifs <;> omega

lemma osaF_eq_zero : ∀ (f : Nat) (s t : List Nat),
    s.length + t.length ≤ f → osaF f s t = 0 → s = t := by
  intro f
  induction f with
  | zero =>
      intro s t h _
      have hs : s = [] := List.eq_nil_of_length_eq_zero (by omega)
      have ht : t = [] := List.eq_nil_of_length_eq_zero (by omega)
      rw [hs, ht]
  | succ f ih =>
      intro s t h h0
      rcases s with _ | ⟨a, s⟩
      · rcases t with _ | ⟨b, t⟩
        · rfl
        · rw [osaF_nil_left] at h0
          simp at h0
      · rcases t with _ | ⟨b, t⟩
        · rw [osaF_nil_right] at h0
          simp at h0
        · rcases s with _ | ⟨a2, s2⟩ <;> rcases t with _ | ⟨b2, t2⟩
          · rw [osaF_one_one] at h0
            split_ifs at h0 with hab
            · rw [hab]
            · omega
          · rw [osaF_one_many] at h0
            split_ifs at h0 with hab
            · have hz : osaF f [] (b2 :: t2) = 0 := by omega
              have := ih [] (b2 :: t2) (by simp only [List.length_cons] at h ⊢; omega) hz
              simp at this
            · omega
          · rw [osaF_many_one] at h0
            split_ifs at h0 with hab
            · have hz : osaF f (a2 :: s2) [] = 0 := by omega
              have := ih (a2 :: s2) [] (by simp only [List.length_cons] at h ⊢; omega) hz
              simp at this
            · omega
          · rw [osaF_many_many] at h0
            have hbound : (a2 :: s2).length + (b2 :: t2).length ≤ f := by
              simp only [List.length_cons] at h ⊢; omega
            split_ifs at h0 with htr hab hab
            · have hz : osaF f (a2 :: s2) (b2 :: t2) = 0 := by omega
              rw [hab, ih (a2 :: s2) (b2 :: t2) hbound hz]
            · omega
            · have hz : osaF f (a2 :: s2) (b2 :: t2) = 0 := by omega
              rw [hab, ih (a2 :: s2) (b2 :: t2) hbound hz]
            · omega

lemma osaF_le_max : ∀ (f : Nat) (s t : List Nat),
    s.length + t.length ≤ f → osaF f s t ≤ max s.length t.length := by
  intro f
  induction f with
  | zero => intro s t h; exact Nat.zero_le _
  | succ f ih =>
      intro s t h
      rcases s with _ | ⟨a, s⟩
      · rw [osaF_nil_left]; exact le_max_right _ _
      · rcases t with _ | ⟨b, t⟩
        · rw [osaF_nil_right]; exact le_max_left _ _
        · have h3 := ih s t (by simp only [List.length_cons] at h; omega)
          rcases s with _ | ⟨a2, s2⟩ <;> rcases t with _ | ⟨b2, t2⟩
          · rw [osaF_one_one]
            simp only [List.length_cons, List.length_nil] at h3 ⊢
            split_ifs at h3 ⊢ <;> omega
          · rw [osaF_one_many]
            simp only [List.length_cons, List.length_nil] at h3 ⊢
            split_ifs at h3 ⊢ <;> omega
          · rw [osaF_many_one]
            simp only [List.length_cons, List.length_nil] at h3 ⊢
            split_ifs at h3 ⊢ <;> omega
          · rw [osaF_many_many]
            simp only [List.length_cons, List.length_nil] at h3 ⊢
            split_ifs at h3 ⊢ <;> omega

lemma osa_self (s : List Nat) : osa s s = 0 := osaF_self _ s le_rfl

lemma osa_eq_zero {s t : List Nat} (h : osa s t = 0) : s = t := osaF_eq_zero _ s t le_rfl h

lemma osa_le_max (s t : List Nat) : osa s t ≤ max s.length t.length :=
  osaF_le_max _ s t le_rfl

/-- Modelled from the spec: `normalized_damerau_levenshtein_distance`, the OSA
distance divided by the length of the longer input. -/
def normalized_damerau_levenshtein_distance (src tgt : List Nat) : ℚ :=
  (osa src tgt : ℚ) / ((max src.length tgt.length : ℕ) : ℚ)

namespace KeyPathRanker

/-- Embedding of `KeyPathRanker.rank(src, tgt)`: `p` is the number of distinct candidate
key symbols absent from the source key path, `a = d + p` with `d` the
normalized Damerau-Levenshtein distance, `b = max(len(src), len(tgt)) + p`,
and the score is `1 - a/b`.  When both paths are empty, `b = 0` and the Python
division raises `ZeroDivisionError`, modelled by `error ()`. -/
def rank (src tgt : List Nat) : Except Unit ℚ :=
  let p : ℚ := (((tgt.toFinset \ src.toFinset).card : ℕ) : ℚ)
  if max src.length tgt.length = 0 then Except.error ()
  else
    Except.ok (1 - (normalized_damerau_levenshtein_distance src tgt + p) /
      (((max src.length tgt.length : ℕ) : ℚ) + p))

end KeyPathRanker

lemma rankScore_bounds {src tgt : List Nat} {r : ℚ}
    (h : KeyPathRanker.rank src tgt = Except.ok r) : 0 ≤ r ∧ r ≤ 1 := by
  unfold KeyPathRanker.rank at h
  by_cases hmx : max src.length tgt.length = 0
  · rw [if_pos hmx] at h
    exact absurd h (by simp)
  · rw [if_neg hmx] at h
    injection h with h
    have hmx1 : 1 ≤ max src.length tgt.length := Nat.one_le_iff_ne_zero.mpr hmx
    have hmxQ : (1 : ℚ) ≤ ((max src.length tgt.length : ℕ) : ℚ) := by exact_mod_cast hmx1
    have hmxpos : (0 : ℚ) < ((max src.length tgt.length : ℕ) : ℚ) := by linarith
    have hp : (0 : ℚ) ≤ (((tgt.toFinset \ src.toFinset).card : ℕ) : ℚ) := Nat.cast_nonneg _
    have hosa0 : (0 : ℚ) ≤ (osa src tgt : ℚ) := Nat.cast_nonneg _
    have hosa : (osa src tgt : ℚ) ≤ ((max src.length tgt.length : ℕ) : ℚ) := by
      exact_mod_cast osa_le_max src tgt
    have hd0 : 0 ≤ normalized_damerau_levenshtein_distance src tgt :=
      div_nonneg hosa0 (le_of_lt hmxpos)
    have hd1 : normalized_damerau_levenshtein_distance src tgt ≤ 1 :=
      (div_le_one hmxpos).mpr hosa
    have hB : (0 : ℚ) < ((max src.length tgt.length : ℕ) : ℚ) +
        (((tgt.toFinset \ src.toFinset).card : ℕ) : ℚ) := by linarith
    have hA0 : (0 : ℚ) ≤ normalized_damerau_levenshtein_distance src tgt +
        (((tgt.toFinset \ src.toFinset).card : ℕ) : ℚ) := by linarith
    have hAB : normalized_damerau_levenshtein_distance src tgt +
        (((tgt.toFinset \ src.toFinset).card : ℕ) : ℚ) ≤
        ((max src.length tgt.length : ℕ) : ℚ) +
        (((tgt.toFinset \ src.toFinset).card : ℕ) : ℚ) := by linarith
    have h1 : (normalized_damerau_levenshtein_distance src tgt +
        (((tgt.toFinset \ src.toFinset).card : ℕ) : ℚ)) /
        (((max src.length tgt.length : ℕ) : ℚ) +
        (((tgt.toFinset \ src.toFinset).card : ℕ) : ℚ)) ≤ 1 := (div_le_one hB).mpr hAB
    have h0 : 0 ≤ (normalized_damerau_levenshtein_distance src tgt +
        (((tgt.toFinset \ src.toFinset).card : ℕ) : ℚ)) /
        (((max src.length tgt.length : ℕ) : ℚ) +
        (((tgt.toFinset \ src.toFinset).card : ℕ) : ℚ)) := div_nonneg hA0 (le_of_lt hB)
    constructor <;> [rw [← h]; rw [← h]] <;> linarith

/-- C7: `rank(k, k) = 1` for every non-empty key path `k`, and conversely a
rank of 1 is only produced when the two key sequences are identical, in which
case the candidate key path has no symbol absent from the source key path. -/
theorem keyPathRank_eq_one_iff (k src tgt : List Nat) :
    (k ≠ [] → KeyPathRanker.rank k k = Except.ok 1) ∧
    (KeyPathRanker.rank src tgt = Except.ok 1 →
      src = tgt ∧ tgt.toFinset \ src.toFinset = ∅) := by
  constructor
  · intro hk
    unfold KeyPathRanker.rank
    have hmx : max k.length k.length ≠ 0 := by
      simp only [max_self]
      exact fun h => hk (List.eq_nil_of_length_eq_zero h)
    rw [if_neg hmx]
    have hp : ((k.toFinset \ k.toFinset).card : ℕ) = 0 := by simp
    have hnd : normalized_damerau_levenshtein_distance k k = 0 := by
      unfold normalized_damerau_levenshtein_distance
      rw [osa_self]
      simp
    rw [hp, hnd]
    norm_num
  · intro h
    unfold KeyPathRanker.rank at h
    by_cases hmx : max src.length tgt.length = 0
    · rw [if_pos hmx] at h
      exact absurd h (by simp)
    · rw [if_neg hmx] at h
      injection h with h
      have hmx1 : 1 ≤ max src.length tgt.length := Nat.one_le_iff_ne_zero.mpr hmx
      have hmxQ : (1 : ℚ) ≤ ((max src.length tgt.length : ℕ) : ℚ) := by exact_mod_cast hmx1
      have hmxpos : (0 : ℚ) < ((max src.length tgt.length : ℕ) : ℚ) := by linarith
      have hp : (0 : ℚ) ≤ (((tgt.toFinset \ src.toFinset).card : ℕ) : ℚ) := Nat.cast_nonneg _
      have hB : (0 : ℚ) < ((max src.length tgt.length : ℕ) : ℚ) +
          (((tgt.toFinset \ src.toFinset).card : ℕ) : ℚ) := by linarith
      have hA : (normalized_damerau_levenshtein_distance src tgt +
          (((tgt.toFinset \ src.toFinset).card : ℕ) : ℚ)) = 0 := by
        have hdiv : (normalized_damerau_levenshtein_distance src tgt +
            (((tgt.toFinset \ src.toFinset).card : ℕ) : ℚ)) /
            (((max src.length tgt.length : ℕ) : ℚ) +
            (((tgt.toFinset \ src.toFinset).card : ℕ) : ℚ)) = 0 := by linarith
        have := (div_eq_zero_iff.mp hdiv)
        rcases this with h' | h'
        · exact h'
        · exact absurd h' (ne_of_gt hB)
      have hosa0 : (0 : ℚ) ≤ (osa src tgt : ℚ) := Nat.cast_nonneg _
      have hd0 : 0 ≤ normalized_damerau_levenshtein_distance src tgt :=
        div_nonneg hosa0 (le_of_lt hmxpos)
      have hdz : normalized_damerau_levenshtein_distance src tgt = 0 := by linarith
      have hpz : (((tgt.toFinset \ src.toFinset).card : ℕ) : ℚ) = 0 := by linarith
      have hosaz : osa src tgt = 0 := by
        unfold normalized_damerau_levenshtein_distance at hdz
        rcases div_eq_zero_iff.mp hdz with h' | h'
        · exact_mod_cast h'
        · exact absurd h' (ne_of_gt hmxpos)
      have hcard : (tgt.toFinset \ src.toFinset).card = 0 := by exact_mod_cast hpz
      exact ⟨osa_eq_zero hosaz, Finset.card_eq_zero.mp hcard⟩

/-- C7 witness: the theorem applied at the concrete non-empty key path `[0]`. -/
theorem keyPathRank_eq_one_iff_witness :
    KeyPathRanker.rank [0] [0] = Except.ok 1 ∧
      (([0] : List Nat) = [0] ∧
        ([0] : List Nat).toFinset \ ([0] : List Nat).toFinset = ∅) := by
  have h1 := (keyPathRank_eq_one_iff [0] [0] [0]).1 (by decide)
  exact ⟨h1, (keyPathRank_eq_one_iff [0] [0] [0]).2 h1⟩

/-- C8 counterexample: there are no non-empty key paths on which the Ranker
produces a negative score; the claimed witness pair does not exist. -/
theorem keyPathRank_never_negative :
    ¬ ∃ (src tgt : List Nat), src ≠ [] ∧ tgt ≠ [] ∧
      ∃ r : ℚ, KeyPathRanker.rank src tgt = Except.ok r ∧ r < 0 := by
  rintro ⟨src, tgt, -, -, r, hok, hneg⟩
  exact absurd hneg (not_lt.mpr (rankScore_bounds hok).1)

/-- C8 (amended): every score the Ranker returns lies in the interval
`[0, 1]`; in particular the output is bounded below by 0, because the
normalized Damerau-Levenshtein distance is at most 1 while
`max(len(src), len(tgt))` is at least 1 on any defined input. -/
theorem keyPathRank_in_unit_interval (src tgt : List Nat) (r : ℚ)
    (h : KeyPathRanker.rank src tgt = Except.ok r) : 0 ≤ r ∧ r ≤ 1 :=
  rankScore_bounds h

/-- C8 witness: the amended theorem applied at the concrete key paths `[0]`
and `[1]`, where the Ranker returns exactly 0. -/
theorem keyPathRank_in_unit_interval_witness :
    KeyPathRanker.rank [0] [1] = Except.ok 0 ∧ ((0 : ℚ) ≤ 0 ∧ (0 : ℚ) ≤ 1) := by
  have hv : KeyPathRanker.rank [0] [1] = Except.ok 0 := by
    unfold KeyPathRanker.rank normalized_damerau_levenshtein_distance
    rw [if_neg (by decide)]
    rw [show osa [0] [1] = 1 from by decide,
      show (([1] : List Nat).toFinset \ ([0] : List Nat).toFinset).card = 1 from by decide,
      show max ([0] : List Nat).length ([1] : List Nat).length = 1 from by decide]
    norm_num
  exact ⟨hv, keyPathRank_in_unit_interval [0] [1] 0 hv⟩

/-! ### Path model and the Key Path Generator's source-keying phase

A `SourceNode` carries its category label, optional parent label, child
labels and the derived extended split term set (`split_terms`, computed
eagerly by `ExtendedSplitTermSet` at construction; the generator reads only
this field and the key).  Node keys live in a map from path position to
`Option Nat` (Python stores `key = None` on each node object; positions stand
for the node objects of the path). -/

structure SourceNode where
  wcategory : String
  wparent : Option String
  Wchildren : List String
  split_terms : Finset String

instance : Inhabited SourceNode := ⟨⟨"", none, [], ∅⟩⟩

/-- Embedding of `SourceNode.__eq__`: two source nodes are equal iff their extended split
term sets are equal; stated on path positions. -/
def eqv (nodes : List SourceNode) (p q : Nat) : Prop :=
  (nodes.getD p default).split_terms = (nodes.getD q default).split_terms

instance (nodes : List SourceNode) (p q : Nat) : Decidable (eqv nodes p q) :=
  inferInstanceAs (Decidable (_ = _))

lemma eqv_refl (nodes : List SourceNode) (q : Nat) : eqv nodes q q := rfl

lemma eqv_symm {nodes : List SourceNode} {p q : Nat} (h : eqv nodes p q) : eqv nodes q p :=
  Eq.symm h

lemma eqv_trans {nodes : List SourceNode} {p q r : Nat}
    (h1 : eqv nodes p q) (h2 : eqv nodes q r) : eqv nodes p r :=
  Eq.trans h1 h2

/-- The first (least) position whose node is `eqv` to position `q`. -/
def firstIdx (nodes : List SourceNode) (q : Nat) : Nat :=
  Nat.find (⟨q, eqv_refl nodes q⟩ : ∃ p, eqv nodes p q)

lemma firstIdx_le (nodes : List SourceNode) (q : Nat) : firstIdx nodes q ≤ q :=
  Nat.find_le (eqv_refl nodes q)

lemma firstIdx_eqv (nodes : List SourceNode) (q : Nat) : eqv nodes (firstIdx nodes q) q :=
  Nat.find_spec (⟨q, eqv_refl nodes q⟩ : ∃ p, eqv nodes p q)

lemma firstIdx_congr {nodes : List SourceNode} {p q : Nat} (h : eqv nodes p q) :
    firstIdx nodes p = firstIdx nodes q := by
  apply le_antisymm
  · exact Nat.find_le (eqv_trans (firstIdx_eqv nodes q) (eqv_symm h))
  · exact Nat.find_le (eqv_trans (firstIdx_eqv nodes p) h)

lemma firstIdx_idem (nodes : List SourceNode) (q : Nat) :
    firstIdx nodes (firstIdx nodes q) = firstIdx nodes q :=
  firstIdx_congr (firstIdx_eqv nodes q)

lemma firstIdx_eq_self {nodes : List SourceNode} {q : Nat}
    (h : ∀ p, p < q → ¬ eqv nodes p q) : firstIdx nodes q = q := by
  rcases Nat.lt_or_ge (firstIdx nodes q) q with hlt | hge
  · exact absurd (firstIdx_eqv nodes q) (h _ hlt)
  · exact le_antisymm (firstIdx_le nodes q) hge

/-- The mutable state of the Key Path Generator while keying: the key map of
the source path and the running `node_key_counter`. -/
structure KS where
  keys : Nat → Option Nat
  counter : Nat

/-- The inner loop of `_key_source_path` for a fixed outer position `i`: walks
the positions `j` after `i`; on the first `j` with `nodes[i] == nodes[j]` it
copies `keys[i]` into `keys[j]` and breaks; otherwise an unkeyed `j` receives
a fresh key. -/
def skInner (nodes : List SourceNode) (i : Nat) : List Nat → KS → KS
  | [], st => st
  | j :: js, st =>
      if eqv nodes i j then
        ⟨Function.update st.keys j (st.keys i), st.counter⟩
      else if (st.keys j).isNone then
        skInner nodes i js ⟨Function.update st.keys j (some st.counter), st.counter + 1⟩
      else skInner nodes i js st

/-- The outer loop of `_key_source_path`: for `i = 0` a still-unkeyed first
node receives a fresh key; then the inner scan runs over positions
`i+1 … n-1`. -/
def skOuter (nodes : List SourceNode) : List Nat → KS → KS
  | [], st => st
  | i :: rest, st =>
      let st1 : KS :=
        if i = 0 ∧ (st.keys 0).isNone then
          ⟨Function.update st.keys 0 (some st.counter), st.counter + 1⟩
        else st
      skOuter nodes rest (skInner nodes i (List.range' (i + 1) (nodes.length - (i + 1))) st1)

/-- Embedding of `KeyPathGenerator._key_source_path`, run from the all-unkeyed state with
counter 0. -/
def keySourcePath (nodes : List SourceNode) : KS :=
  skOuter nodes (List.range nodes.length) ⟨fun _ => none, 0⟩

/-- Invariant at entry of outer iteration `i` (and, with `i = n`, after the
source-keying phase): positions up to `i` are keyed, all keys are below the
counter, equal keys only occur on `eqv` positions, and every position whose
latest earlier class member has already been scanned carries the key of the
first member of its class. -/
structure SKInv (nodes : List SourceNode) (i : Nat) (st : KS) : Prop where
  covered : ∀ q, q < nodes.length → q ≤ i → 1 ≤ i → (st.keys q).isSome = true
  bound : ∀ q v, st.keys q = some v → v < st.counter
  distinct : ∀ q q' v, q < nodes.length → q' < nodes.length →
    st.keys q = some v → st.keys q' = some v → eqv nodes q q'
  chained : ∀ q, q < nodes.length → (∃ p, p < q ∧ eqv nodes p q) →
    (∀ p, i ≤ p → p < q → ¬ eqv nodes p q) →
    st.keys q = st.keys (firstIdx nodes q) ∧ (st.keys (firstIdx nodes q)).isSome = true

/-- Invariant of the inner scan of outer iteration `i`, about to visit
position `j`. -/
structure SKInnerInv (nodes : List SourceNode) (i j : Nat) (st : KS) : Prop where
  visited : ∀ q, q < nodes.length → q < j → (st.keys q).isSome = true
  bound : ∀ q v, st.keys q = some v → v < st.counter
  distinct : ∀ q q' v, q < nodes.length → q' < nodes.length →
    st.keys q = some v → st.keys q' = some v → eqv nodes q q'
  chained : ∀ q, q < nodes.length → (∃ p, p < q ∧ eqv nodes p q) →
    (∀ p, i ≤ p → p < q → ¬ eqv nodes p q) →
    st.keys q = st.keys (firstIdx nodes q) ∧ (st.keys (firstIdx nodes q)).isSome = true
  noneq : ∀ q, i < q → q < j → ¬ eqv nodes i q

lemma skInner_spec (nodes : List SourceNode) (i : Nat) :
    ∀ (k j : Nat) (st : KS), nodes.length - j = k → i < j → j ≤ nodes.length →
      SKInnerInv nodes i j st →
      SKInv nodes (i + 1) (skInner nodes i (List.range' j k) st) := by
  intro k
  induction k with
  | zero =>
      intro j st hk hij hjn hInv
      have hj : j = nodes.length := by omega
      subst hj
      refine ⟨?_, hInv.bound, hInv.distinct, ?_⟩
      · intro q hq _ _
        exact hInv.visited q hq hq
      · intro q hq hex hall
        apply hInv.chained q hq hex
        intro p hip hpq
        rcases Nat.eq_or_lt_of_le hip with hpe | hlt
        · subst hpe
          exact hInv.noneq q hpq hq
        · exact hall p (by omega) hpq
  | succ k ih =>
      intro j st hk hij hjn hInv
      have hjln : j < nodes.length := by omega
      rw [show List.range' j (k + 1) = j :: List.range' (j + 1) k from rfl]
      by_cases heq : eqv nodes i j
      · -- the scan finds the first equal node at `j`, copies the key, breaks
        rw [show skInner nodes i (j :: List.range' (j + 1) k) st =
          ⟨Function.update st.keys j (st.keys i), st.counter⟩ from by
            simp only [skInner]; rw [if_pos heq]]
        have hin : i < nodes.length := by omega
        have hiSome : (st.keys i).isSome = true := hInv.visited i hin hij
        have hiCanon : st.keys i = st.keys (firstIdx nodes i) := by
          by_cases hex : ∃ p, p < i ∧ eqv nodes p i
          · exact (hInv.chained i hin hex (fun p h1 h2 _ => by omega)).1
          · push_neg at hex
            rw [firstIdx_eq_self hex]
        have hfj : firstIdx nodes j = firstIdx nodes i := firstIdx_congr (eqv_symm heq)
        have hfi_le : firstIdx nodes i ≤ i := firstIdx_le nodes i
        have hfi_ne_j : firstIdx nodes i ≠ j := by omega
        refine ⟨?_, ?_, ?_, ?_⟩
        · intro q hq hqi h1
          by_cases hqj : q = j
          · subst hqj
            simp only [Function.update_same]
            exact hiSome
          · simp only [Function.update_noteq hqj]
            exact hInv.visited q hq (by omega)
        · intro q v h
          by_cases hqj : q = j
          · subst hqj
            simp only [Function.update_same] at h
            exact hInv.bound i v h
          · simp only [Function.update_noteq hqj] at h
            exact hInv.bound q v h
        · intro q q' v hq hq' hkq hkq'
          by_cases hqj : q = j <;> by_cases hq'j : q' = j
          · subst hqj; subst hq'j; exact eqv_refl nodes _
          · subst hqj
            simp only [Function.update_same] at hkq
            simp only [Function.update_noteq hq'j] at hkq'
            exact eqv_trans (eqv_symm heq) (hInv.distinct i q' v hin hq' hkq hkq')
          · subst hq'j
            simp only [Function.update_noteq hqj] at hkq
            simp only [Function.update_same] at hkq'
            exact eqv_trans (hInv.distinct q i v hq hin hkq hkq') heq
          · simp only [Function.update_noteq hqj] at hkq
            simp only [Function.update_noteq hq'j] at hkq'
            exact hInv.distinct q q' v hq hq' hkq hkq'
        · intro q hq hex hall
          by_cases hqj : q = j
          · subst hqj
            rw [hfj]
            constructor
            · simp only [Function.update_same, Function.update_noteq hfi_ne_j]
              exact hiCanon
            · simp only [Function.update_noteq hfi_ne_j]
              rw [← hiCanon]
              exact hiSome
          · have hstep : ∀ p, i ≤ p → p < q → ¬ eqv nodes p q := by
              intro p hip hpq
              rcases Nat.eq_or_lt_of_le hip with hpe | hlt
              · subst hpe
                intro hiq
                by_cases hqlt : q < j
                · exact hInv.noneq q hpq hqlt hiq
                · have hjq : j < q := by omega
                  exact hall j (by omega) hjq (eqv_trans (eqv_symm heq) hiq)
              · exact hall p (by omega) hpq
            have hold := hInv.chained q hq hex hstep
            have hfq_ne : firstIdx nodes q ≠ j := by
              intro hc
              have hjj : firstIdx nodes j = j := by
                rw [← hc, firstIdx_idem]
              omega
            constructor
            · simp only [Function.update_noteq hqj, Function.update_noteq hfq_ne]
              exact hold.1
            · simp only [Function.update_noteq hfq_ne]
              exact hold.2
      · by_cases hnone : (st.keys j).isNone = true
        · -- unkeyed non-equal node: fresh key, continue the scan
          rw [show skInner nodes i (j :: List.range' (j + 1) k) st =
            skInner nodes i (List.range' (j + 1) k)
              ⟨Function.update st.keys j (some st.counter), st.counter + 1⟩ from by
              simp only [skInner]; rw [if_neg heq, if_pos hnone]]
          apply ih (j + 1) _ (by omega) (by omega) (by omega)
          have hjnone : st.keys j = none := Option.isNone_iff_eq_none.mp hnone
          refine ⟨?_, ?_, ?_, ?_, ?_⟩
          · intro q hq hqj1
            by_cases hqj : q = j
            · subst hqj
              simp only [Function.update_same]
              rfl
            · simp only [Function.update_noteq hqj]
              exact hInv.visited q hq (by omega)
          · intro q v h
            by_cases hqj : q = j
            · subst hqj
              simp only [Function.update_same] at h
              injection h with h
              dsimp only
              omega
            · simp only [Function.update_noteq hqj] at h
              exact Nat.lt_succ_of_lt (hInv.bound q v h)
          · intro q q' v hq hq' hkq hkq'
            by_cases hqj : q = j <;> by_cases hq'j : q' = j
            · subst hqj; subst hq'j; exact eqv_refl nodes _
            · subst hqj
              simp only [Function.update_same] at hkq
              simp only [Function.update_noteq hq'j] at hkq'
              injection hkq with hkq
              exact absurd (hInv.bound q' v hkq') (by omega)
            · subst hq'j
              simp only [Function.update_noteq hqj] at hkq
              simp only [Function.update_same] at hkq'
              injection hkq' with hkq'
              exact absurd (hInv.bound q v hkq) (by omega)
            · simp only [Function.update_noteq hqj] at hkq
              simp only [Function.update_noteq hq'j] at hkq'
              exact hInv.distinct q q' v hq hq' hkq hkq'
          · intro q hq hex hall
            by_cases hqj : q = j
            · subst hqj
              have hold := hInv.chained q hq hex hall
              rw [hold.1] at hjnone
              rw [hjnone] at hold
              exact absurd hold.2 (by simp)
            · have hold := hInv.chained q hq hex hall
              have hfq_ne : firstIdx nodes q ≠ j := by
                intro hc
                rw [hc, hjnone] at hold
                exact absurd hold.2 (by simp)
              constructor
              · simp only [Function.update_noteq hqj, Function.update_noteq hfq_ne]
                exact hold.1
              · simp only [Function.update_noteq hfq_ne]
                exact hold.2
          · intro q hiq hqj1
            by_cases hqj : q = j
            · subst hqj; exact heq
            · exact hInv.noneq q hiq (by omega)
        · -- already keyed non-equal node: skip
          rw [show skInner nodes i (j :: List.range' (j + 1) k) st =
            skInner nodes i (List.range' (j + 1) k) st from by
              simp only [skInner]; rw [if_neg heq, if_neg hnone]]
          apply ih (j + 1) st (by omega) (by omega) (by omega)
          have hjSome : (st.keys j).isSome = true := by
            rcases h : st.keys j with _ | v
            · exact absurd (by rw [h]; rfl) hnone
            · rfl
          refine ⟨?_, hInv.bound, hInv.distinct, hInv.chained, ?_⟩
          · intro q hq hqj1
            by_cases hqj : q = j
            · subst hqj; exact hjSome
            · exact hInv.visited q hq (by omega)
          · intro q hiq hqj1
            by_cases hqj : q = j
            · subst hqj; exact heq
            · exact hInv.noneq q hiq (by omega)

lemma skOuter_spec (nodes : List SourceNode) :
    ∀ (k i : Nat) (st : KS), nodes.length - i = k → i ≤ nodes.length →
      SKInv nodes i st →
      SKInv nodes nodes.length (skOuter nodes (List.range' i k) st) := by
  intro k
  induction k with
  | zero =>
      intro i st hk hin hInv
      have hi : i = nodes.length := by omega
      subst hi
      exact hInv
  | succ k ih =>
      intro i st hk hin hInv
      have hiln : i < nodes.length := by omega
      rw [show List.range' i (k + 1) = i :: List.range' (i + 1) k from rfl]
      rw [show skOuter nodes (i :: List.range' (i + 1) k) st =
        skOuter nodes (List.range' (i + 1) k)
          (skInner nodes i (List.range' (i + 1) (nodes.length - (i + 1)))
            (if i = 0 ∧ (st.keys 0).isNone then
              ⟨Function.update st.keys 0 (some st.counter), st.counter + 1⟩
            else st)) from by simp only [skOuter]]
      have hInner : SKInnerInv nodes i (i + 1)
          (if i = 0 ∧ (st.keys 0).isNone then
            (⟨Function.update st.keys 0 (some st.counter), st.counter + 1⟩ : KS)
          else st) := by
        by_cases hbr : i = 0 ∧ (st.keys 0).isNone = true
        · rw [if_pos hbr]
          obtain ⟨hi0, hk0⟩ := hbr
          subst hi0
          refine ⟨?_, ?_, ?_, ?_, ?_⟩
          · intro q hq hq1
            have hq0 : q = 0 := by omega
            subst hq0
            simp only [Function.update_same]
            rfl
          · intro q v h
            by_cases hq0 : q = 0
            · subst hq0
              simp only [Function.update_same] at h
              injection h with h
              dsimp only
              omega
            · simp only [Function.update_noteq hq0] at h
              exact Nat.lt_succ_of_lt (hInv.bound q v h)
          · intro q q' v hq hq' hkq hkq'
            by_cases hq0 : q = 0 <;> by_cases hq'0 : q' = 0
            · subst hq0; subst hq'0; exact eqv_refl nodes 0
            · subst hq0
              simp only [Function.update_same] at hkq
              simp only [Function.update_noteq hq'0] at hkq'
              injection hkq with hkq
              exact absurd (hInv.bound q' v hkq') (by omega)
            · subst hq'0
              simp only [Function.update_noteq hq0] at hkq
              simp only [Function.update_same] at hkq'
              injection hkq' with hkq'
              exact absurd (hInv.bound q v hkq) (by omega)
            · simp only [Function.update_noteq hq0] at hkq
              simp only [Function.update_noteq hq'0] at hkq'
              exact hInv.distinct q q' v hq hq' hkq hkq'
          · intro q hq hex hall
            obtain ⟨p, hpq, hpe⟩ := hex
            exact absurd hpe (hall p (Nat.zero_le _) hpq)
          · intro q hiq hqi1 _
            omega
        · rw [if_neg hbr]
          refine ⟨?_, hInv.bound, hInv.distinct, hInv.chained, ?_⟩
          · intro q hq hqi1
            by_cases hi0 : i = 0
            · subst hi0
              have hq0 : q = 0 := by omega
              subst hq0
              rcases h : st.keys 0 with _ | v
              · exact absurd ⟨rfl, by rw [h]; rfl⟩ hbr
              · rfl
            · exact hInv.covered q hq (by omega) (by omega)
          · intro q hiq hqi1 _
            omega
      exact ih (i + 1) _ (by omega) (by omega)
        (skInner_spec nodes i (nodes.length - (i + 1)) (i + 1) _ rfl (by omega) (by omega) hInner)

lemma keySourcePath_inv (nodes : List SourceNode) :
    SKInv nodes nodes.length (keySourcePath nodes) := by
  unfold keySourcePath
  rw [List.range_eq_range']
  apply skOuter_spec nodes nodes.length 0 _ (by omega) (Nat.zero_le _)
  refine ⟨?_, ?_, ?_, ?_⟩
  · intro q hq hq0 h10
    omega
  · intro q v h
    exact absurd h (by simp)
  · intro q q' v hq hq' hkq hkq'
    exact absurd hkq (by simp)
  · intro q hq hex hall
    obtain ⟨p, hpq, hpe⟩ := hex
    exact absurd hpe (hall p (Nat.zero_le _) hpq)

lemma keySourcePath_some (nodes : List SourceNode) {q : Nat} (hq : q < nodes.length) :
    (((keySourcePath nodes).keys q).isSome) = true :=
  (keySourcePath_inv nodes).covered q hq (le_of_lt hq) (by omega)

lemma keySourcePath_canon (nodes : List SourceNode) {q : Nat} (hq : q < nodes.length) :
    (keySourcePath nodes).keys q = (keySourcePath nodes).keys (firstIdx nodes q) := by
  by_cases hex : ∃ p, p < q ∧ eqv nodes p q
  · exact ((keySourcePath_inv nodes).chained q hq hex
      (fun p hp hpq => absurd hpq (by omega))).1
  · push_neg at hex
    rw [firstIdx_eq_self hex]

/-- C4: after the source-keying phase, two positions of the source path carry
the same key exactly when their nodes are equal under extended-split-term-set
equality. -/
theorem keySourcePath_invariant (nodes : List SourceNode) (i j : Nat)
    (hi : i < nodes.length) (hj : j < nodes.length) :
    ((keySourcePath nodes).keys i = (keySourcePath nodes).keys j ↔ eqv nodes i j) := by
  constructor
  · intro h
    obtain ⟨v, hv⟩ := Option.isSome_iff_exists.mp (keySourcePath_some nodes hi)
    have hv' : (keySourcePath nodes).keys j = some v := by rw [← h]; exact hv
    exact (keySourcePath_inv nodes).distinct i j v hi hj hv hv'
  · intro h
    rw [keySourcePath_canon nodes hi, keySourcePath_canon nodes hj, firstIdx_congr h]

/-- Concrete fixture nodes for the witnesses and counterexamples: `nodeA` and
`nodeA2` have equal extended split term sets, `nodeB` and `nodeB2` have a
different one. -/
def nodeA : SourceNode := ⟨"A", none, [], {"a"}⟩

def nodeB : SourceNode := ⟨"B", none, [], {"b"}⟩

def nodeA2 : SourceNode := ⟨"A2", none, [], {"a"}⟩

def nodeB2 : SourceNode := ⟨"B2", none, [], {"b"}⟩

/-- C4 witness: the invariant theorem applied to the concrete three-node path
whose first and third nodes have equal term sets. -/
theorem keySourcePath_invariant_witness :
    ((keySourcePath [nodeA, nodeB, nodeA2]).keys 0 =
        (keySourcePath [nodeA, nodeB, nodeA2]).keys 2 ↔
      eqv [nodeA, nodeB, nodeA2] 0 2) :=
  keySourcePath_invariant [nodeA, nodeB, nodeA2] 0 2 (by decide) (by decide)

/-- C5 counterexample: on the path `[A, B, B, A]`, position 2 is first given
the fresh key 2 during outer iteration 0 and then reassigned to key 1 during
outer iteration 1, so node keys are not write-once. -/
theorem key_reassigned_cex :
    (skOuter [nodeA, nodeB, nodeB2, nodeA2] [0] ⟨fun _ => none, 0⟩).keys 2 = some 2 ∧
    keySourcePath [nodeA, nodeB, nodeB2, nodeA2] =
      skOuter [nodeA, nodeB, nodeB2, nodeA2] [1, 2, 3]
        (skOuter [nodeA, nodeB, nodeB2, nodeA2] [0] ⟨fun _ => none, 0⟩) ∧
    (keySourcePath [nodeA, nodeB, nodeB2, nodeA2]).keys 2 = some 1 := by
  refine ⟨by decide, rfl, by decide⟩

/-- C5 (amended): keys are not write-once (see the counterexample), but every
source node's key is written at least once: after the source-keying phase
every position of the path carries a key. -/
theorem keySourcePath_all_keyed (nodes : List SourceNode) (q : Nat)
    (hq : q < nodes.length) : (((keySourcePath nodes).keys q).isSome) = true :=
  keySourcePath_some nodes hq

/-- C5 witness: the amended theorem applied to the concrete four-node path of
the counterexample. -/
theorem keySourcePath_all_keyed_witness :
    (((keySourcePath [nodeA, nodeB, nodeB2, nodeA2]).keys 1).isSome) = true :=
  keySourcePath_all_keyed [nodeA, nodeB, nodeB2, nodeA2] 1 (by decide)

/-! ### Candidate filtering, candidate keying and the full generator -/

/-- A node of a candidate path: the raw target label plus a key slot (keys of
a candidate path live in their own position-indexed map). -/
structure CandidateNode where
  wtarget : String

/-- Embedding of `SourceNode.matches_candidate(candidate_node, tnode)`. -/
def matchesCandidate (a : SourceNode) (b : CandidateNode) (tnode : ℚ) : Except Unit Bool :=
  SemanticMatcher.smatch a.split_terms b.wtarget tnode

/-- The nested loops of `_match_candidate_path`, sequentialized in scan order
(source node major): returns `ok true` at the first matching pair, `ok false`
when no pair matches (Python returns `None`, which fails the `is True` test),
propagating the first raised error. -/
def matchCandidatePairs (tnode : ℚ) : List (SourceNode × CandidateNode) → Except Unit Bool
  | [] => Except.ok false
  | (a, b) :: rest =>
      match matchesCandidate a b tnode with
      | Except.error e => Except.error e
      | Except.ok r => if r then Except.ok true else matchCandidatePairs tnode rest

/-- Embedding of `KeyPathGenerator._match_candidate_path`. -/
def matchCandidatePath (src : List SourceNode) (cand : List CandidateNode) (tnode : ℚ) :
    Except Unit Bool :=
  matchCandidatePairs tnode ((src.map (fun a => cand.map (fun b => (a, b)))).flatten)

/-- Embedding of `KeyPathGenerator._match_candidate_paths`: keeps the candidate paths with
at least one matching node pair.  (Python collects them into a `set`, whose
iteration order is unspecified; the spec requires implementations to fix a
deterministic order, and the list order of arrival is used here.) -/
def matchCandidatePaths (src : List SourceNode) (tnode : ℚ) :
    List (List CandidateNode) → Except Unit (List (List CandidateNode))
  | [] => Except.ok []
  | c :: cs =>
      match matchCandidatePath src c tnode with
      | Except.error e => Except.error e
      | Except.ok m =>
          match matchCandidatePaths src tnode cs with
          | Except.error e => Except.error e
          | Except.ok rest => Except.ok (if m then c :: rest else rest)

/-- Phase 1 of `_key_candidate_path`: for every (source node, candidate node)
pair in scan order, a matching pair copies the source node's key onto the
candidate node (the last matching source node in scan order wins). -/
def keyCandPairs (skeys : Nat → Option Nat) (tnode : ℚ) :
    List ((Nat × SourceNode) × (Nat × CandidateNode)) → (Nat → Option Nat) →
    Except Unit (Nat → Option Nat)
  | [], ck => Except.ok ck
  | ((ia, a), (ib, b)) :: rest, ck =>
      match matchesCandidate a b tnode with
      | Except.error e => Except.error e
      | Except.ok r =>
          keyCandPairs skeys tnode rest (if r then Function.update ck ib (skeys ia) else ck)

/-- Phase 2 of `_key_candidate_path`: every still-unkeyed candidate node
receives a fresh key from the shared counter. -/
def freshFill : List Nat → (Nat → Option Nat) → Nat → ((Nat → Option Nat) × Nat)
  | [], ck, c => (ck, c)
  | ib :: rest, ck, c =>
      if (ck ib).isNone then freshFill rest (Function.update ck ib (some c)) (c + 1)
      else freshFill rest ck c

/-- Embedding of `KeyPathGenerator._key_candidate_path` on one candidate path. -/
def keyCandidatePath (src : List SourceNode) (skeys : Nat → Option Nat)
    (cand : List CandidateNode) (tnode : ℚ) (counter : Nat) :
    Except Unit ((Nat → Option Nat) × Nat) :=
  match keyCandPairs skeys tnode
      ((src.enum.map (fun pa => cand.enum.map (fun pb => (pa, pb)))).flatten)
      (fun _ => none) with
  | Except.error e => Except.error e
  | Except.ok ck => Except.ok (freshFill (List.range cand.length) ck counter)

/-- Keying of all matched candidate paths, threading the key counter. -/
def keyAllCandidates (src : List SourceNode) (skeys : Nat → Option Nat) (tnode : ℚ) :
    List (List CandidateNode) → Nat → Except Unit (List (Nat → Option Nat) × Nat)
  | [], c => Except.ok ([], c)
  | cand :: rest, c =>
      match keyCandidatePath src skeys cand tnode c with
      | Except.error e => Except.error e
      | Except.ok (ck, c') =>
          match keyAllCandidates src skeys tnode rest c' with
          | Except.error e => Except.error e
          | Except.ok (cks, c'') => Except.ok (ck :: cks, c'')

/-- The state a constructed `KeyPathGenerator` instance exposes: the source
path, the key maps of the source path and of each matched candidate path, the
matched candidate paths, and the final counter. -/
structure KeyPathGenerator where
  source_path : List SourceNode
  srcKeys : Nat → Option Nat
  matched_candidate_paths : List (List CandidateNode)
  candKeys : List (Nat → Option Nat)
  node_key_counter : Nat

/-- The generator's fixed node-matching threshold `self.tnode = 0.8`. -/
def tnodeDefault : ℚ := 4 / 5

/-- Embedding of `KeyPathGenerator.__init__`: source keying, candidate filtering, then
candidate keying. -/
def mkKeyPathGenerator (source_path : List SourceNode)
    (candidate_paths : List (List CandidateNode)) : Except Unit KeyPathGenerator :=
  let st := keySourcePath source_path
  match matchCandidatePaths source_path tnodeDefault candidate_paths with
  | Except.error e => Except.error e
  | Except.ok matched =>
      match keyAllCandidates source_path st.keys tnodeDefault matched st.counter with
      | Except.error e => Except.error e
      | Except.ok (cks, ctr) => Except.ok ⟨source_path, st.keys, matched, cks, ctr⟩

/-- Embedding of `KeyPathGenerator.source_key_path`: the joined sequence of source node
keys (`none` if some node were unkeyed, where Python would raise). -/
def KeyPathGenerator.source_key_path (g : KeyPathGenerator) : Option (List Nat) :=
  (List.range g.source_path.length).mapM g.srcKeys

/-- C10: whenever construction of the Key Path Generator succeeds, the source
key map it exposes is exactly the key map produced by the source-keying phase
alone — the candidate filtering and candidate keying phases never modify a
source node's key, so the exposed source key path does not depend on the
candidate paths supplied. -/
theorem generator_source_keys_frame (spath : List SourceNode)
    (cpaths : List (List CandidateNode)) :
    match mkKeyPathGenerator spath cpaths with
    | Except.ok g =>
        g.srcKeys = (keySourcePath spath).keys ∧
        g.source_key_path = (List.range spath.length).mapM (keySourcePath spath).keys
    | Except.error _ => True := by
  unfold mkKeyPathGenerator
  cases h1 : matchCandidatePaths spath tnodeDefault cpaths with
  | error e => dsimp only
  | ok matched =>
      dsimp only
      cases h2 : keyAllCandidates spath (keySourcePath spath).keys tnodeDefault matched
          (keySourcePath spath).counter with
      | error e => dsimp only
      | ok p =>
          obtain ⟨cks, ctr⟩ := p
          dsimp only
          exact ⟨rfl, rfl⟩

/-! ### Extended Split Term Set builder over the WordNet interface -/

/-- Modelled from the spec: the read-only WordNet interface of §6 — synsets of
a term, the four direct relations, lemma names and glosses.  Synsets are
identified by naturals. -/
structure WordNet where
  synsets : String → List Nat
  hypernyms : Nat → List Nat
  hyponyms : Nat → List Nat
  part_meronyms : Nat → List Nat
  part_holonyms : Nat → List Nat
  lemma_names : Nat → List String
  gloss : Nat → String

/-- Embedding of `get_related(S)`: the synset `S` itself plus its hypernyms, hyponyms, part-meronyms
and part-holonyms. -/
def get_related (kb : WordNet) (S : Nat) : List Nat :=
  S :: (kb.hypernyms S ++ kb.hyponyms S ++ kb.part_meronyms S ++ kb.part_holonyms S)

/-- Embedding of `disambiguate(w, Wcontext)`: scores each candidate sense by the summed
normalized LCS score of the glosses of its related senses (as a set, Python's
`set(get_related(s))`) against every context word, and keeps the first sense
with the strictly highest score; `none` when every score is 0 (the initial
best score), in particular when `w` has no senses. -/
def disambiguate (kb : WordNet) (w : String) (Wcontext : Finset String) : Option Nat :=
  ((kb.synsets w).foldl
    (fun acc s =>
      let sensescore : ℚ :=
        ∑ sr ∈ (get_related kb s).toFinset, ∑ wc ∈ Wcontext, lcsScore (kb.gloss sr) wc
      if acc.1 < sensescore then (sensescore, some s) else acc)
    ((0 : ℚ), (none : Option Nat))).2

/-- The parent's contribution to the context: Python tests `if self.wparent`,
so both an absent parent and an empty parent label contribute nothing. -/
def parentContext : Option String → Finset String
  | none => ∅
  | some p => if p = "" then ∅ else splitComposite p

/-- The context set `Wcontext = Wchild | Wparent`: the split terms of all child labels
together with the parent's split terms. -/
def contextTerms (wparent : Option String) (Wchildren : List String) : Finset String :=
  (Wchildren.foldl (fun acc w => acc ∪ splitComposite w) ∅) ∪ parentContext wparent

namespace ExtendedSplitTermSet

/-- Embedding of `ExtendedSplitTermSet.split_terms`: for each atomic term of the split
category label, disambiguation is attempted against the context; a found
sense contributes its lemma names together with the original term, a term
with no sense contributes nothing.  The Python computation raises
`ZeroDivisionError` (modelled by `error ()`) exactly when some compared
(gloss, context word) pair consists of two empty strings: the loops have no
early exit, so the error is raised iff such a pair exists. -/
def split_terms (kb : WordNet) (wcategory : String) (wparent : Option String)
    (Wchildren : List String) : Except Unit (Finset String) :=
  let Wcategory := splitComposite wcategory
  let Wcontext := contextTerms wparent Wchildren
  if ∃ w ∈ Wcategory, ∃ s ∈ kb.synsets w, ∃ sr ∈ (get_related kb s).toFinset,
      kb.gloss sr = "" ∧ "" ∈ Wcontext then
    Except.error ()
  else
    Except.ok (Wcategory.biUnion (fun w =>
      match disambiguate kb w Wcontext with
      | some s => (kb.lemma_names s).toFinset ∪ {w}
      | none => ∅))

end ExtendedSplitTermSet

/-- Embedding of `SourceNode.__init__`: a source node derives its extended split term set
eagerly from the builder. -/
def mkSourceNode (kb : WordNet) (wcategory : String) (wparent : Option String)
    (Wchildren : List String) : Except Unit SourceNode :=
  match ExtendedSplitTermSet.split_terms kb wcategory wparent Wchildren with
  | Except.error e => Except.error e
  | Except.ok terms => Except.ok ⟨wcategory, wparent, Wchildren, terms⟩

/-- A knowledge base with no senses for any term (a valid WordNet response:
absence of senses is a non-error outcome). -/
def kbEmpty : WordNet :=
  ⟨fun _ => [], fun _ => [], fun _ => [], fun _ => [], fun _ => [], fun _ => [], fun _ => ""⟩

/-- C1: evaluating the builder at the failing input: with a knowledge base
that has no senses for "cheese", the extended split term set of category
"cheese" (no parent, no children) is the empty set — the original atomic term
is dropped when disambiguation finds no sense, contrary to the claim and to
the spec's stated intent that the original term is always kept. -/
theorem split_terms_drops_senseless_term :
    ExtendedSplitTermSet.split_terms kbEmpty "cheese" none [] =
      Except.ok (∅ : Finset String) ∧
    "cheese" ∉ (∅ : Finset String) := by
  exact ⟨by decide, Finset.not_mem_empty _⟩
